import Mathlib

/-!
Verification of the zhobo schema-tree navigator, the selection-flagging
iterator (`src/tree/tree_iter.rs`), the syntax-text conversion
(`src/ui/syntax_text.rs`), connection URL masking (`src/config.rs`) and the
tab component (`src/components/tab.rs`).

The navigator and the flattening iterator themselves (DatabaseTree /
TreeItemsIterator) are not among the provided source files; they are
modelled from the spec (each such definition carries a doc comment starting
with `Modelled from the spec:`).
-/

namespace Zhobo

/-- Modelled from the spec: a schema-tree node (the SchemaNode model of the
spec, section 3).  Each node carries an opaque stable identifier, used as the
collapse-set key, and an ordered list of children.  The kind/payload of the
node is irrelevant to the navigator's logic and is abstracted away. -/
inductive Node : Type where
  | mk (id : Nat) (children : List Node)
deriving Repr

/-- The stable identifier of a node. -/
def Node.id : Node → Nat
  | .mk i _ => i

/-- The ordered children of a node. -/
def Node.children : Node → List Node
  | .mk _ cs => cs

mutual

/-- All identifiers of a subtree, in depth-first pre-order. -/
def subIdsN : Node → List Nat
  | .mk i cs => i :: subIdsF cs

/-- All identifiers of a forest, in depth-first pre-order. -/
def subIdsF : List Node → List Nat
  | [] => []
  | n :: ns => subIdsN n ++ subIdsF ns

end

mutual

/-- Modelled from the spec: the flattening of one subtree under collapse set
`C` at depth `d` (spec section 4.2): if the node's id is in the collapse set,
emit the node itself but do not descend; otherwise emit the node and recurse
into each child in stored order.  Output entries are (id, depth) pairs. -/
def flattenN (C : List Nat) (d : Nat) : Node → List (Nat × Nat)
  | .mk i cs => if i ∈ C then [(i, d)] else (i, d) :: flattenF C (d + 1) cs

/-- Modelled from the spec: the flattening of a forest under collapse set `C`
at depth `d`, children in stored order. -/
def flattenF (C : List Nat) (d : Nat) : List Node → List (Nat × Nat)
  | [] => []
  | n :: ns => flattenN C d n ++ flattenF C d ns

end

mutual

/-- Find the first node with the given id in a subtree, pre-order. -/
def findN (c : Nat) : Node → Option Node
  | .mk i cs => if i = c then some (.mk i cs) else findF c cs

/-- Find the first node with the given id in a forest, pre-order. -/
def findF (c : Nat) : List Node → Option Node
  | [] => none
  | n :: ns =>
    match findN c n with
    | some m => some m
    | none => findF c ns

end

/-- The identifiers of the currently visible rows, in display order. -/
def visibleIds (C : List Nat) (f : List Node) : List Nat :=
  (flattenF C 0 f).map Prod.fst

/-- A simultaneous induction principle for nodes and forests, used in place
of mutual induction throughout. -/
theorem node_forest_ind {P : Node → Prop} {Q : List Node → Prop}
    (hmk : ∀ i cs, Q cs → P (.mk i cs)) (hnil : Q [])
    (hcons : ∀ n ns, P n → Q ns → Q (n :: ns)) :
    (∀ n, P n) ∧ (∀ f, Q f) := by
  have key : ∀ k : Nat, (∀ n : Node, sizeOf n ≤ k → P n) ∧
      (∀ f : List Node, sizeOf f ≤ k → Q f) := by
    intro k
    induction k with
    | zero =>
      constructor
      · intro n hn
        cases n with
        | mk i cs => simp at hn
      · intro f hf
        cases f with
        | nil => exact hnil
        | cons n ns => simp at hf
    | succ k ih =>
      constructor
      · intro n hn
        cases n with
        | mk i cs =>
          apply hmk
          apply ih.2
          simp at hn
          omega
      · intro f hf
        cases f with
        | nil => exact hnil
        | cons n ns =>
          simp at hf
          exact hcons n ns (ih.1 n (by omega)) (ih.2 ns (by omega))
  exact ⟨fun n => (key (sizeOf n)).1 n le_rfl, fun f => (key (sizeOf f)).2 f le_rfl⟩

/-- Ids emitted by the flattening are ids of the tree. -/
theorem flatten_ids_sub :
    (∀ n : Node, ∀ C d e, e ∈ flattenN C d n → e.1 ∈ subIdsN n) ∧
    (∀ f : List Node, ∀ C d e, e ∈ flattenF C d f → e.1 ∈ subIdsF f) := by
  apply node_forest_ind
  · intro i cs ih C d e he
    simp only [flattenN] at he
    simp only [subIdsN]
    by_cases hi : i ∈ C
    · simp [hi] at he
      simp [he]
    · simp [hi] at he
      rcases he with he | he
      · simp [he]
      · exact List.mem_cons_of_mem _ (ih C (d + 1) e he)
  · intro C d e he
    simp [flattenF] at he
  · intro n ns ihn ihf C d e he
    simp only [flattenF, List.mem_append] at he
    simp only [subIdsF, List.mem_append]
    rcases he with he | he
    · exact Or.inl (ihn C d e he)
    · exact Or.inr (ihf C d e he)

/-- Adding an id that does not occur in the tree to the collapse set does not
change the flattening. -/
theorem flatten_irrelevant :
    (∀ n : Node, ∀ C d c, c ∉ subIdsN n → flattenN (c :: C) d n = flattenN C d n) ∧
    (∀ f : List Node, ∀ C d c, c ∉ subIdsF f → flattenF (c :: C) d f = flattenF C d f) := by
  apply node_forest_ind
  · intro i cs ih C d c hc
    simp only [subIdsN, List.mem_cons, not_or] at hc
    simp only [flattenN]
    by_cases hi : i ∈ C
    · rw [if_pos hi, if_pos (List.mem_cons_of_mem c hi)]
    · have h1 : i ∉ c :: C := by
        intro h
        rcases List.mem_cons.mp h with h | h
        · exact hc.1 h.symm
        · exact hi h
      rw [if_neg h1, if_neg hi, ih C (d + 1) c hc.2]
  · intro C d c _
    simp [flattenF]
  · intro n ns ihn ihf C d c hc
    simp only [subIdsF, List.mem_append, not_or] at hc
    simp only [flattenF]
    rw [ihn C d c hc.1, ihf C d c hc.2]

/-- Shrinking the collapse set only reveals rows: every entry visible under
`C` stays visible under any subset of `C`. -/
theorem flatten_monotone :
    (∀ n : Node, ∀ C C' d e, (∀ x, x ∈ C' → x ∈ C) →
      e ∈ flattenN C d n → e ∈ flattenN C' d n) ∧
    (∀ f : List Node, ∀ C C' d e, (∀ x, x ∈ C' → x ∈ C) →
      e ∈ flattenF C d f → e ∈ flattenF C' d f) := by
  apply node_forest_ind
  · intro i cs ih C C' d e hsub he
    simp only [flattenN] at he ⊢
    by_cases hi : i ∈ C
    · simp [hi] at he
      by_cases hi' : i ∈ C'
      · simp [hi', he]
      · simp [hi', he]
    · have hi' : i ∉ C' := fun h => hi (hsub i h)
      simp [hi] at he
      rcases he with he | he
      · simp [hi', he]
      · simp only [hi', if_false, List.mem_cons]
        exact Or.inr (ih C C' (d + 1) e hsub he)
  · intro C C' d e _ he
    simp [flattenF] at he
  · intro n ns ihn ihf C C' d e hsub he
    simp only [flattenF, List.mem_append] at he ⊢
    rcases he with he | he
    · exact Or.inl (ihn C C' d e hsub he)
    · exact Or.inr (ihf C C' d e hsub he)

/-- A successful find returns a node whose id is the one searched for. -/
theorem find_id :
    (∀ n : Node, ∀ c m, findN c n = some m → m.id = c) ∧
    (∀ f : List Node, ∀ c m, findF c f = some m → m.id = c) := by
  apply node_forest_ind
  · intro i cs ih c m hm
    simp only [findN] at hm
    by_cases hi : i = c
    · simp [hi] at hm
      rw [← hm]
      simp [Node.id, hi]
    · simp [hi] at hm
      exact ih c m hm
  · intro c m hm
    simp [findF] at hm
  · intro n ns ihn ihf c m hm
    simp only [findF] at hm
    cases hfn : findN c n with
    | some m' =>
      rw [hfn] at hm
      simp at hm
      exact ihn c m (hm ▸ hfn)
    | none =>
      rw [hfn] at hm
      exact ihf c m hm

/-- The subtree returned by a successful find is a sub-slice of the tree's
pre-order id sequence. -/
theorem find_sublist :
    (∀ n : Node, ∀ c m, findN c n = some m → (subIdsN m).Sublist (subIdsN n)) ∧
    (∀ f : List Node, ∀ c m, findF c f = some m → (subIdsN m).Sublist (subIdsF f)) := by
  apply node_forest_ind
  · intro i cs ih c m hm
    simp only [findN] at hm
    by_cases hi : i = c
    · simp [hi] at hm
      rw [← hm, hi]
    · simp [hi] at hm
      have := ih c m hm
      simp only [subIdsN]
      exact this.trans (List.sublist_cons_self i (subIdsF cs))
  · intro c m hm
    simp [findF] at hm
  · intro n ns ihn ihf c m hm
    simp only [findF] at hm
    cases hfn : findN c n with
    | some m' =>
      rw [hfn] at hm
      simp at hm
      have := ihn c m (hm ▸ hfn)
      simp only [subIdsF]
      exact this.trans (List.sublist_append_left _ _)
    | none =>
      rw [hfn] at hm
      have := ihf c m hm
      simp only [subIdsF]
      exact this.trans (List.sublist_append_right _ _)

/-- A failed find means the id does not occur in the tree. -/
theorem find_none :
    (∀ n : Node, ∀ c, findN c n = none → c ∉ subIdsN n) ∧
    (∀ f : List Node, ∀ c, findF c f = none → c ∉ subIdsF f) := by
  apply node_forest_ind
  · intro i cs ih c hm
    simp only [findN] at hm
    by_cases hi : i = c
    · simp [hi] at hm
    · simp [hi] at hm
      simp only [subIdsN, List.mem_cons, not_or]
      exact ⟨fun h => hi h.symm, ih c hm⟩
  · intro c _
    simp [subIdsF]
  · intro n ns ihn ihf c hm
    simp only [findF] at hm
    cases hfn : findN c n with
    | some m' => rw [hfn] at hm; simp at hm
    | none =>
      rw [hfn] at hm
      simp only [subIdsF, List.mem_append, not_or]
      exact ⟨ihn c hfn, ihf c hm⟩

/-- A successful find means the id occurs in the tree. -/
theorem find_mem_of_some (f : List Node) (c : Nat) (m : Node)
    (hm : findF c f = some m) : c ∈ subIdsF f := by
  have h1 : m.id = c := find_id.2 f c m hm
  have h2 : (subIdsN m).Sublist (subIdsF f) := find_sublist.2 f c m hm
  have h3 : m.id ∈ subIdsN m := by
    cases m with
    | mk i cs => simp [Node.id, subIdsN]
  exact h2.subset (h1 ▸ h3)

/-- The ids of a found node's children, as a set, sit below the found node. -/
theorem find_children_sub (f : List Node) (c : Nat) (m : Node)
    (hm : findF c f = some m) : ∀ x, x ∈ subIdsF m.children → x ∈ subIdsF f := by
  intro x hx
  have h2 : (subIdsN m).Sublist (subIdsF f) := find_sublist.2 f c m hm
  apply h2.subset
  cases m with
  | mk i cs =>
    simp only [Node.children] at hx
    simp [subIdsN, hx]

/-- Central collapse lemma: inserting the id of a tree node into the
collapse set removes from the flattening exactly the entries lying in that
node's (strict) subtree, keeping everything else in the same relative
order. -/
theorem collapse_filter :
    (∀ n' : Node, ∀ C d c m, (subIdsN n').Nodup → findN c n' = some m →
      flattenN (c :: C) d n' =
        (flattenN C d n').filter (fun e => decide (e.1 ∉ subIdsF m.children))) ∧
    (∀ f : List Node, ∀ C d c m, (subIdsF f).Nodup → findF c f = some m →
      flattenF (c :: C) d f =
        (flattenF C d f).filter (fun e => decide (e.1 ∉ subIdsF m.children))) := by
  apply node_forest_ind
  · intro i cs ih C d c m hnd hm
    simp only [findN] at hm
    simp only [subIdsN, List.nodup_cons] at hnd
    by_cases hi : i = c
    · rw [if_pos hi] at hm
      subst hi
      injection hm with hm
      have hchild : subIdsF m.children = subIdsF cs := by
        rw [← hm]
        simp [Node.children]
      simp only [flattenN, hchild]
      rw [if_pos (List.mem_cons_self i C)]
      have hkeep : i ∉ subIdsF cs := hnd.1
      have hdrop : (flattenF C (d + 1) cs).filter
          (fun e => decide (e.1 ∉ subIdsF cs)) = [] := by
        rw [List.filter_eq_nil_iff]
        intro e he
        simp only [decide_eq_true_eq, not_not]
        exact flatten_ids_sub.2 cs C (d + 1) e he
      by_cases hiC : i ∈ C
      · rw [if_pos hiC]
        simp [List.filter_cons, hkeep]
      · rw [if_neg hiC]
        simp [List.filter_cons, hkeep, hdrop]
        intro a b hab
        exact flatten_ids_sub.2 cs C (d + 1) (a, b) hab
    · rw [if_neg hi] at hm
      have hmem : c ∈ subIdsF cs := find_mem_of_some cs c m hm
      have hic : i ≠ c := hi
      have hsub : ∀ x, x ∈ subIdsF m.children → x ∈ subIdsF cs :=
        find_children_sub cs c m hm
      have hikeep : decide (((i : Nat), d).1 ∉ subIdsF m.children) = true := by
        simp only [decide_eq_true_eq]
        intro hx
        exact hnd.1 (hsub i hx)
      simp only [flattenN]
      have hccons : (i ∈ c :: C) ↔ (i ∈ C) := by
        simp [List.mem_cons, hic]
      by_cases hiC : i ∈ C
      · rw [if_pos hiC, if_pos (hccons.mpr hiC)]
        simp only [List.filter_cons, hikeep, if_pos]
        simp
      · rw [if_neg hiC, if_neg (fun h => hiC (hccons.mp h))]
        simp only [List.filter_cons, hikeep, if_pos]
        rw [ih C (d + 1) c m hnd.2 hm]
  · intro C d c m _ hm
    simp [findF] at hm
  · intro n ns ihn ihf C d c m hnd hm
    simp only [subIdsF] at hnd
    have hndn : (subIdsN n).Nodup := (List.nodup_append.mp hnd).1
    have hndns : (subIdsF ns).Nodup := (List.nodup_append.mp hnd).2.1
    have hdisj : ∀ x, x ∈ subIdsN n → x ∈ subIdsF ns → False := by
      intro x h1 h2
      exact (List.nodup_append.mp hnd).2.2 h1 h2
    simp only [findF] at hm
    simp only [flattenF, List.filter_append]
    cases hfn : findN c n with
    | some m' =>
      rw [hfn] at hm
      simp only [Option.some.injEq] at hm
      subst hm
      have hchild : ∀ x, x ∈ subIdsF m'.children → x ∈ subIdsN n :=
        fun x hx => (find_sublist.1 n c m' hfn).subset (by
          cases m' with
          | mk j js =>
            simp only [Node.children] at hx
            simp [subIdsN, hx])
      have h2 : flattenF (c :: C) d ns = flattenF C d ns := by
        apply flatten_irrelevant.2
        intro hc
        exact hdisj c ((find_sublist.1 n c m' hfn).subset (by
          have : m'.id = c := find_id.1 n c m' hfn
          cases m' with
          | mk j js =>
            simp only [Node.id] at this
            simp [subIdsN, this])) hc
      have h3 : (flattenF C d ns).filter
          (fun e => decide (e.1 ∉ subIdsF m'.children)) = flattenF C d ns := by
        rw [List.filter_eq_self]
        intro e he
        simp only [decide_eq_true_eq]
        intro hx
        exact hdisj e.1 (hchild e.1 hx) (flatten_ids_sub.2 ns C d e he)
      rw [ihn C d c m' hndn hfn, h2, h3]
    | none =>
      rw [hfn] at hm
      have hcn : c ∉ subIdsN n := find_none.1 n c hfn
      have h1 : flattenN (c :: C) d n = flattenN C d n :=
        flatten_irrelevant.1 n C d c hcn
      have hchild : ∀ x, x ∈ subIdsF m.children → x ∈ subIdsF ns :=
        find_children_sub ns c m hm
      have h3 : (flattenN C d n).filter
          (fun e => decide (e.1 ∉ subIdsF m.children)) = flattenN C d n := by
        rw [List.filter_eq_self]
        intro e he
        simp only [decide_eq_true_eq]
        intro hx
        exact hdisj e.1 (flatten_ids_sub.1 n C d e he) (hchild e.1 hx)
      rw [ihf C d c m hndns hm, h1, h3]

/-- If a strict descendant of the node with id `c` is visible, then `c`
itself is visible (ancestors of visible nodes are visible). -/
theorem ancestor_visible :
    (∀ n' : Node, ∀ C d c m e, (subIdsN n').Nodup → findN c n' = some m →
      e ∈ flattenN C d n' → e.1 ∈ subIdsF m.children →
      ∃ e', e' ∈ flattenN C d n' ∧ e'.1 = c) ∧
    (∀ f : List Node, ∀ C d c m e, (subIdsF f).Nodup → findF c f = some m →
      e ∈ flattenF C d f → e.1 ∈ subIdsF m.children →
      ∃ e', e' ∈ flattenF C d f ∧ e'.1 = c) := by
  apply node_forest_ind
  · intro i cs ih C d c m e hnd hm he hdesc
    simp only [subIdsN, List.nodup_cons] at hnd
    simp only [findN] at hm
    by_cases hi : i = c
    · refine ⟨(i, d), ?_, hi⟩
      simp only [flattenN]
      by_cases hiC : i ∈ C
      · simp [hiC]
      · simp [hiC]
    · rw [if_neg hi] at hm
      have hsub : ∀ x, x ∈ subIdsF m.children → x ∈ subIdsF cs :=
        find_children_sub cs c m hm
      simp only [flattenN] at he ⊢
      by_cases hiC : i ∈ C
      · simp only [hiC, if_pos, List.mem_singleton] at he
        exfalso
        apply hnd.1
        apply hsub i
        rw [he] at hdesc
        simpa using hdesc
      · simp only [hiC, if_neg, if_false, List.mem_cons] at he
        rcases he with he | he
        · exfalso
          apply hnd.1
          apply hsub i
          rw [he] at hdesc
          simpa using hdesc
        · rcases ih C (d + 1) c m e hnd.2 hm he hdesc with ⟨e', he', hc⟩
          exact ⟨e', by simp [hiC, List.mem_cons, he'], hc⟩
  · intro C d c m e _ hm
    simp [findF] at hm
  · intro n ns ihn ihf C d c m e hnd hm he hdesc
    simp only [subIdsF] at hnd
    have hdisj : ∀ x, x ∈ subIdsN n → x ∈ subIdsF ns → False := by
      intro x h1 h2
      exact (List.nodup_append.mp hnd).2.2 h1 h2
    simp only [findF] at hm
    simp only [flattenF, List.mem_append] at he ⊢
    cases hfn : findN c n with
    | some m' =>
      rw [hfn] at hm
      simp only [Option.some.injEq] at hm
      subst hm
      have hchild : ∀ x, x ∈ subIdsF m'.children → x ∈ subIdsN n :=
        fun x hx => (find_sublist.1 n c m' hfn).subset (by
          cases m' with
          | mk j js =>
            simp only [Node.children] at hx
            simp [subIdsN, hx])
      rcases he with he | he
      · rcases ihn C d c m' e (List.nodup_append.mp hnd).1 hfn he hdesc with ⟨e', he', hc⟩
        exact ⟨e', Or.inl he', hc⟩
      · exfalso
        exact hdisj e.1 (hchild e.1 hdesc) (flatten_ids_sub.2 ns C d e he)
    | none =>
      rw [hfn] at hm
      have hchild : ∀ x, x ∈ subIdsF m.children → x ∈ subIdsF ns :=
        find_children_sub ns c m hm
      rcases he with he | he
      · exfalso
        exact hdisj e.1 (flatten_ids_sub.1 n C d e he) (hchild e.1 hdesc)
      · rcases ihf C d c m e (List.nodup_append.mp hnd).2.1 hm he hdesc with ⟨e', he', hc⟩
        exact ⟨e', Or.inr he', hc⟩

/-- The flattening of a single subtree is never empty: the subtree's root is
always emitted. -/
theorem flattenN_ne_nil (C : List Nat) (d : Nat) (n : Node) :
    flattenN C d n ≠ [] := by
  cases n with
  | mk i cs =>
    simp only [flattenN]
    by_cases hi : i ∈ C
    · simp [hi]
    · simp [hi]

/-- The visible id sequence is a sub-slice of the tree's pre-order id
sequence; in particular it inherits freedom from duplicates. -/
theorem flatten_fst_sublist :
    (∀ n : Node, ∀ C d, ((flattenN C d n).map Prod.fst).Sublist (subIdsN n)) ∧
    (∀ f : List Node, ∀ C d, ((flattenF C d f).map Prod.fst).Sublist (subIdsF f)) := by
  apply node_forest_ind
  · intro i cs ih C d
    simp only [flattenN, subIdsN]
    by_cases hi : i ∈ C
    · simp only [hi, if_pos, List.map_cons, List.map_nil]
      exact (List.nil_sublist _).cons₂ i
    · simp only [hi, if_neg, if_false, List.map_cons]
      exact (ih C (d + 1)).cons₂ i
  · intro C d
    simp [flattenF]
  · intro n ns ihn ihf C d
    simp only [flattenF, subIdsF, List.map_append]
    exact (ihn C d).append (ihf C d)

/-- Visible ids under one collapse set never contain duplicates when the
tree's ids are unique. -/
theorem visibleIds_nodup (C : List Nat) (f : List Node)
    (hnd : (subIdsF f).Nodup) : (visibleIds C f).Nodup :=
  (flatten_fst_sublist.2 f C 0).nodup hnd

mutual

/-- Number of nodes in a subtree, used as the iterator's termination
measure. -/
def weightN : Node → Nat
  | .mk _ cs => 1 + weightF cs

/-- Number of nodes in a forest. -/
def weightF : List Node → Nat
  | [] => 0
  | n :: ns => weightN n + weightF ns

end

/-- Modelled from the spec: the state of the stack-based flattening iterator
(TreeItemsIterator, not among the provided sources).  It borrows the
collapse set read-only and keeps an explicit work stack of
(node, depth) pairs. -/
structure IterState where
  collapsed : List Nat
  stack : List (Node × Nat)

/-- Total node count left on the work stack. -/
def stackWeight : List (Node × Nat) → Nat
  | [] => 0
  | (n, _) :: rest => weightN n + stackWeight rest

/-- Modelled from the spec: one `next` step of the flattening iterator.  If
the stack is exhausted the iterator is done; otherwise the top node is
emitted, and its children are pushed unless its id is in the collapse
set. -/
def iterNext (s : IterState) : Option ((Nat × Nat) × IterState) :=
  match s.stack with
  | [] => none
  | (n, d) :: rest =>
    if n.id ∈ s.collapsed then
      some ((n.id, d), ⟨s.collapsed, rest⟩)
    else
      some ((n.id, d), ⟨s.collapsed, n.children.map (fun ch => (ch, d + 1)) ++ rest⟩)

/-- Every node weighs at least one. -/
theorem weightN_pos (n : Node) : 0 < weightN n := by
  cases n with
  | mk i cs => simp only [weightN]; omega

/-- Pushing a forest onto the stack adds exactly its weight. -/
theorem stackWeight_append (l r : List (Node × Nat)) :
    stackWeight (l ++ r) = stackWeight l + stackWeight r := by
  induction l with
  | nil => simp [stackWeight]
  | cons p rest ih =>
    cases p with
    | mk n d =>
      simp only [List.cons_append, stackWeight, List.append_eq, ih]
      omega

/-- The weight of a mapped forest equals the forest's weight. -/
theorem stackWeight_map (cs : List Node) (d : Nat) :
    stackWeight (cs.map (fun ch => (ch, d))) = weightF cs := by
  induction cs with
  | nil => simp [stackWeight, weightF]
  | cons n ns ih =>
    simp only [List.map_cons, stackWeight, weightF, ih]

/-- A step of the iterator strictly shrinks the stack weight. -/
theorem iterNext_weight (s : IterState) (x : (Nat × Nat) × IterState)
    (h : iterNext s = some x) :
    stackWeight x.2.stack < stackWeight s.stack := by
  unfold iterNext at h
  cases hs : s.stack with
  | nil => rw [hs] at h; simp at h
  | cons p rest =>
    cases p with
    | mk n d =>
      rw [hs] at h
      simp only at h
      by_cases hc : n.id ∈ s.collapsed
      · rw [if_pos hc] at h
        injection h with h
        rw [← h]
        simp only [stackWeight]
        have := weightN_pos n
        omega
      · rw [if_neg hc] at h
        injection h with h
        rw [← h]
        simp only [stackWeight, stackWeight_append, stackWeight_map]
        have hw : weightN n = 1 + weightF n.children := by
          cases n with
          | mk i cs => simp [weightN, Node.children]
        omega

/-- Modelled from the spec: running the iterator to exhaustion collects the
whole lazily-produced sequence. -/
def runIter (s : IterState) : List (Nat × Nat) :=
  match h : iterNext s with
  | none => []
  | some x => x.1 :: runIter x.2
termination_by stackWeight s.stack
decreasing_by exact iterNext_weight s x h

/-- The pure flattening of a whole work stack. -/
def flattenStack (C : List Nat) : List (Node × Nat) → List (Nat × Nat)
  | [] => []
  | (n, d) :: rest => flattenN C d n ++ flattenStack C rest

/-- The initial iterator state for a tree and a collapse set. -/
def initIter (f : List Node) (C : List Nat) : IterState :=
  ⟨C, f.map (fun n => (n, 0))⟩

/-- A step of the iterator never mutates the borrowed collapse set. -/
theorem iterNext_frame (s : IterState) (x : (Nat × Nat) × IterState)
    (h : iterNext s = some x) : x.2.collapsed = s.collapsed := by
  unfold iterNext at h
  cases hs : s.stack with
  | nil => rw [hs] at h; simp at h
  | cons p rest =>
    cases p with
    | mk n d =>
      rw [hs] at h
      simp only at h
      by_cases hc : n.id ∈ s.collapsed
      · rw [if_pos hc] at h
        injection h with h
        rw [← h]
      · rw [if_neg hc] at h
        injection h with h
        rw [← h]

/-- Unfolding `runIter` when the iterator is exhausted. -/
theorem runIter_none (s : IterState) (h : iterNext s = none) : runIter s = [] := by
  rw [runIter]
  split
  · rfl
  next y heq =>
    rw [heq] at h
    cases h

/-- Unfolding `runIter` on one successful step. -/
theorem runIter_some (s : IterState) (x : (Nat × Nat) × IterState)
    (h : iterNext s = some x) : runIter s = x.1 :: runIter x.2 := by
  rw [runIter]
  split
  next heq =>
    rw [heq] at h
    cases h
  next y heq =>
    rw [heq] at h
    injection h with h
    rw [h]

/-- Pushing a mapped forest in front of the stack flattens to the forest's
flattening followed by the rest. -/
theorem flattenStack_push (C : List Nat) (d : Nat) (cs : List Node)
    (rest : List (Node × Nat)) :
    flattenStack C (cs.map (fun ch => (ch, d)) ++ rest) =
      flattenF C d cs ++ flattenStack C rest := by
  induction cs with
  | nil => simp [flattenStack, flattenF]
  | cons m ms ihm =>
    simp only [List.map_cons, List.cons_append, flattenStack, flattenF,
      List.append_eq, ihm, List.append_assoc]

/-- Running the stateful iterator equals the pure flattening of its work
stack. -/
theorem runIter_eq_flattenStack (C : List Nat) (st : List (Node × Nat)) :
    runIter ⟨C, st⟩ = flattenStack C st := by
  have main : ∀ k, ∀ st : List (Node × Nat), stackWeight st ≤ k →
      runIter ⟨C, st⟩ = flattenStack C st := by
    intro k
    induction k with
    | zero =>
      intro st hst
      cases st with
      | nil =>
        rw [runIter_none _ (by simp [iterNext])]
        rfl
      | cons p rest =>
        exfalso
        cases p with
        | mk n d =>
          simp only [stackWeight] at hst
          have := weightN_pos n
          omega
    | succ k ih =>
      intro st hst
      cases st with
      | nil =>
        rw [runIter_none _ (by simp [iterNext])]
        rfl
      | cons p rest =>
        cases p with
        | mk n d =>
          cases n with
          | mk i cs =>
            simp only [stackWeight, weightN] at hst
            by_cases hc : i ∈ C
            · have hnext : iterNext ⟨C, (Node.mk i cs, d) :: rest⟩ =
                  some ((i, d), ⟨C, rest⟩) := by
                simp [iterNext, Node.id, hc]
              rw [runIter_some _ _ hnext]
              rw [ih rest (by omega)]
              simp only [flattenStack, flattenN, if_pos hc, List.singleton_append]
            · have hnext : iterNext ⟨C, (Node.mk i cs, d) :: rest⟩ =
                  some ((i, d), ⟨C, cs.map (fun ch => (ch, d + 1)) ++ rest⟩) := by
                simp [iterNext, Node.id, hc, Node.children]
              rw [runIter_some _ _ hnext]
              rw [ih (cs.map (fun ch => (ch, d + 1)) ++ rest)
                (by rw [stackWeight_append, stackWeight_map]; omega)]
              rw [flattenStack_push]
              simp only [flattenStack, flattenN, if_neg hc, List.cons_append]
  exact main (stackWeight st) st le_rfl

/-- Restartability: a fresh run from the same inputs is the pure flattening
of the tree, hence identical across runs. -/
theorem runIter_initIter (f : List Node) (C : List Nat) :
    runIter (initIter f C) = flattenF C 0 f := by
  rw [initIter, runIter_eq_flattenStack]
  induction f with
  | nil => simp [flattenStack, flattenF]
  | cons n ns ih =>
    simp only [List.map_cons, flattenStack, flattenF, ih]

/-- Modelled from the spec: the Tree Navigator's state (spec section 4.3) —
the tree (a forest of roots; empty list = no tree loaded), the collapse set
of stable ids, and the selection, a stable node id or none. -/
structure Navigator where
  tree : List Node
  collapsed : List Nat
  selection : Option Nat

/-- The navigator's current visible id sequence. -/
def Navigator.visible (nav : Navigator) : List Nat :=
  visibleIds nav.collapsed nav.tree

/-- Modelled from the spec: `select_first` jumps to the first visible node;
on an empty tree it is a no-op. -/
def Navigator.doSelectFirst (nav : Navigator) : Navigator :=
  match nav.visible with
  | [] => nav
  | x :: _ => { nav with selection := some x }

/-- Modelled from the spec: `select_last` jumps to the last visible node; on
an empty tree it is a no-op. -/
def Navigator.doSelectLast (nav : Navigator) : Navigator :=
  match nav.visible.getLast? with
  | none => nav
  | some x => { nav with selection := some x }

/-- Modelled from the spec: `select_next` moves the selection one step down
the current flattened sequence; at the last visible node it is a no-op (no
wraparound). -/
def Navigator.doSelectNext (nav : Navigator) : Navigator :=
  match nav.selection with
  | none => nav
  | some s =>
    let l := nav.visible
    if h : l.indexOf s + 1 < l.length then
      { nav with selection := some (l.get ⟨l.indexOf s + 1, h⟩) }
    else nav

/-- Modelled from the spec: `select_previous` moves the selection one step up
the current flattened sequence; at the first visible node it is a no-op (no
wraparound). -/
def Navigator.doSelectPrevious (nav : Navigator) : Navigator :=
  match nav.selection with
  | none => nav
  | some s =>
    let l := nav.visible
    if h : 0 < l.indexOf s ∧ l.indexOf s < l.length then
      { nav with selection := some (l.get ⟨l.indexOf s - 1, by omega⟩) }
    else nav

/-- Modelled from the spec: `expand` removes the id from the collapse set;
leaf nodes and ids not present in the tree ignore the call (the lazy-load
path is out of scope of this model). -/
def Navigator.doExpand (nav : Navigator) (c : Nat) : Navigator :=
  match findF c nav.tree with
  | none => nav
  | some n =>
    if n.children.isEmpty then nav
    else { nav with collapsed := nav.collapsed.filter (fun x => x != c) }

/-- Modelled from the spec: `collapse` inserts the id into the collapse set;
only non-leaf nodes of the tree are collapsible; if the selection was inside
the now-hidden subtree, the selection moves up to this node. -/
def Navigator.doCollapse (nav : Navigator) (c : Nat) : Navigator :=
  match findF c nav.tree with
  | none => nav
  | some n =>
    if n.children.isEmpty then nav
    else
      { nav with
        collapsed := c :: nav.collapsed
        selection :=
          match nav.selection with
          | none => none
          | some s => if s ∈ subIdsF n.children then some c else some s }

/-- Modelled from the spec: `toggle` expands a collapsed node and collapses
an expanded one. -/
def Navigator.doToggle (nav : Navigator) (c : Nat) : Navigator :=
  if c ∈ nav.collapsed then nav.doExpand c else nav.doCollapse c

/-- Modelled from the spec: the navigator operations driven by the
key-binding layer (spec section 6, inbound input).  The loader-driven
`rebuild` of the spec's section 4.3 operation table is the remaining
navigator mutation; the full mutation set is `Mutation` below. -/
inductive Op : Type where
  | selectNext
  | selectPrevious
  | selectFirst
  | selectLast
  | expand (target : Nat)
  | collapse (target : Nat)
  | toggle (target : Nat)

/-- Dispatch one navigator operation. -/
def applyOp (op : Op) (nav : Navigator) : Navigator :=
  match op with
  | .selectNext => nav.doSelectNext
  | .selectPrevious => nav.doSelectPrevious
  | .selectFirst => nav.doSelectFirst
  | .selectLast => nav.doSelectLast
  | .expand c => nav.doExpand c
  | .collapse c => nav.doCollapse c
  | .toggle c => nav.doToggle c

/-- Modelled from the spec: `rebuild` (spec sections 3 and 4.3): replaces the
tree wholesale; the collapse set is re-mapped to the stable ids that still
exist in the new tree; the previous selection is re-mapped by stable id where
it still names a visible node, and otherwise falls back to selecting the
root (the first visible node); on an empty new tree the selection is
cleared. -/
def Navigator.doRebuild (nav : Navigator) (newTree : List Node) : Navigator :=
  let collapsed' := nav.collapsed.filter (fun x => decide (x ∈ subIdsF newTree))
  { tree := newTree
    collapsed := collapsed'
    selection :=
      match nav.selection with
      | some s =>
        if s ∈ visibleIds collapsed' newTree then some s
        else (visibleIds collapsed' newTree).head?
      | none => (visibleIds collapsed' newTree).head? }

/-- Modelled from the spec: the full set of navigator mutations of the
spec's section 4.3 operation table — the key-driven navigation operations
plus the loader-driven `rebuild`. -/
inductive Mutation : Type where
  | nav (op : Op)
  | rebuild (newTree : List Node)

/-- Dispatch one navigator mutation. -/
def applyMutation (m : Mutation) (nav : Navigator) : Navigator :=
  match m with
  | .nav op => applyOp op nav
  | .rebuild t => nav.doRebuild t

/-- The selection invariant: on an empty tree the selection is none; on a
non-empty tree the selection is set and refers to a visible node. -/
def Navigator.selOk (nav : Navigator) : Bool :=
  match nav.tree, nav.selection with
  | [], none => true
  | [], some _ => false
  | _ :: _, none => false
  | _ :: _, some s => decide (s ∈ nav.visible)

/-- Record updates that only touch the selection do not change visibility. -/
theorem visible_set_selection (nav : Navigator) (s : Option Nat) :
    (Navigator.visible { nav with selection := s }) = nav.visible := rfl

/-- On a non-empty tree the visible sequence is non-empty. -/
theorem visible_ne_nil (C : List Nat) (n : Node) (ns : List Node) :
    visibleIds C (n :: ns) ≠ [] := by
  simp only [visibleIds, flattenF]
  intro h
  rw [List.map_eq_nil_iff, List.append_eq_nil] at h
  exact flattenN_ne_nil C 0 n h.1

/-- An empty tree flattens to the empty sequence. -/
theorem visible_nil (C : List Nat) : visibleIds C [] = [] := rfl

/-- Unfolded characterisation of the selection invariant. -/
theorem selOk_iff (nav : Navigator) :
    nav.selOk = true ↔
      ((nav.tree = [] ∧ nav.selection = none) ∨
       (nav.tree ≠ [] ∧ ∃ s, nav.selection = some s ∧ s ∈ nav.visible)) := by
  obtain ⟨tree, C, sel⟩ := nav
  cases tree <;> cases sel <;> simp [Navigator.selOk, Navigator.visible]

/-- Shrinking the collapse set preserves visibility of an id. -/
theorem mem_visible_mono (C C' : List Nat) (f : List Node)
    (hsub : ∀ x, x ∈ C' → x ∈ C) (s : Nat) (hs : s ∈ visibleIds C f) :
    s ∈ visibleIds C' f := by
  simp only [visibleIds, List.mem_map] at hs ⊢
  rcases hs with ⟨e, he, hfst⟩
  exact ⟨e, flatten_monotone.2 f C C' 0 e hsub he, hfst⟩

/-- A visible id outside the collapsed node's subtree stays visible after
the collapse. -/
theorem mem_visible_collapse_kept (C : List Nat) (f : List Node) (c : Nat)
    (n : Node) (hnd : (subIdsF f).Nodup) (hf : findF c f = some n) (s : Nat)
    (hs : s ∈ visibleIds C f) (hout : s ∉ subIdsF n.children) :
    s ∈ visibleIds (c :: C) f := by
  simp only [visibleIds, List.mem_map] at hs ⊢
  rcases hs with ⟨e, he, hfst⟩
  refine ⟨e, ?_, hfst⟩
  rw [collapse_filter.2 f C 0 c n hnd hf, List.mem_filter]
  refine ⟨he, ?_⟩
  simp only [decide_eq_true_eq, hfst]
  exact hout

/-- If the collapsed node hides the selected id, the collapsed node itself
is visible after the collapse. -/
theorem mem_visible_collapse_anc (C : List Nat) (f : List Node) (c : Nat)
    (n : Node) (hnd : (subIdsF f).Nodup) (hf : findF c f = some n) (s : Nat)
    (hs : s ∈ visibleIds C f) (hin : s ∈ subIdsF n.children) :
    c ∈ visibleIds (c :: C) f := by
  have hc_before : ∃ e', e' ∈ flattenF C 0 f ∧ e'.1 = c := by
    simp only [visibleIds, List.mem_map] at hs
    rcases hs with ⟨e, he, hfst⟩
    exact ancestor_visible.2 f C 0 c n e hnd hf he (by rw [hfst]; exact hin)
  rcases hc_before with ⟨e', he', hc⟩
  have hnotdesc : c ∉ subIdsF n.children := by
    have hndn : (subIdsN n).Nodup := (find_sublist.2 f c n hf).nodup hnd
    have hid : n.id = c := find_id.2 f c n hf
    cases n with
    | mk j js =>
      simp only [Node.id] at hid
      subst hid
      simp only [subIdsN, List.nodup_cons] at hndn
      simpa [Node.children] using hndn.1
  simp only [visibleIds, List.mem_map]
  refine ⟨e', ?_, hc⟩
  rw [collapse_filter.2 f C 0 c n hnd hf, List.mem_filter]
  refine ⟨he', ?_⟩
  simp only [decide_eq_true_eq, hc]
  exact hnotdesc

/-- Operation `select_first` preserves the selection invariant. -/
theorem selOk_doSelectFirst (nav : Navigator) (h : nav.selOk = true) :
    nav.doSelectFirst.selOk = true := by
  obtain ⟨tree, C, sel⟩ := nav
  cases tree with
  | nil =>
    simpa [Navigator.doSelectFirst, Navigator.visible, visible_nil] using h
  | cons t ts =>
    cases hv : visibleIds C (t :: ts) with
    | nil => exact absurd hv (visible_ne_nil C t ts)
    | cons x xs =>
      simp [Navigator.doSelectFirst, Navigator.visible, hv, Navigator.selOk]

/-- Operation `select_last` preserves the selection invariant. -/
theorem selOk_doSelectLast (nav : Navigator) (h : nav.selOk = true) :
    nav.doSelectLast.selOk = true := by
  obtain ⟨tree, C, sel⟩ := nav
  cases tree with
  | nil =>
    simpa [Navigator.doSelectLast, Navigator.visible, visible_nil] using h
  | cons t ts =>
    cases hv : (visibleIds C (t :: ts)).getLast? with
    | none =>
      exact absurd (List.getLast?_eq_none_iff.mp hv) (visible_ne_nil C t ts)
    | some x =>
      have hmem : x ∈ visibleIds C (t :: ts) := by
        have hne : visibleIds C (t :: ts) ≠ [] := visible_ne_nil C t ts
        rw [List.getLast?_eq_getLast_of_ne_nil hne] at hv
        injection hv with hv
        rw [← hv]
        exact List.getLast_mem hne
      simp [Navigator.doSelectLast, Navigator.visible, hv, Navigator.selOk, hmem]

/-- Operation `select_next` preserves the selection invariant. -/
theorem selOk_doSelectNext (nav : Navigator) (h : nav.selOk = true) :
    nav.doSelectNext.selOk = true := by
  obtain ⟨tree, C, sel⟩ := nav
  cases sel with
  | none => simpa [Navigator.doSelectNext] using h
  | some s =>
    cases tree with
    | nil => simp [Navigator.selOk] at h
    | cons t ts =>
      simp only [Navigator.doSelectNext, Navigator.visible]
      by_cases hlt : (visibleIds C (t :: ts)).indexOf s + 1 < (visibleIds C (t :: ts)).length
      · rw [dif_pos hlt]
        simp only [Navigator.selOk, Navigator.visible, decide_eq_true_eq]
        exact List.get_mem _ _ _
      · rw [dif_neg hlt]
        exact h

/-- Operation `select_previous` preserves the selection invariant. -/
theorem selOk_doSelectPrevious (nav : Navigator) (h : nav.selOk = true) :
    nav.doSelectPrevious.selOk = true := by
  obtain ⟨tree, C, sel⟩ := nav
  cases sel with
  | none => simpa [Navigator.doSelectPrevious] using h
  | some s =>
    cases tree with
    | nil => simp [Navigator.selOk] at h
    | cons t ts =>
      simp only [Navigator.doSelectPrevious, Navigator.visible]
      by_cases hlt : 0 < (visibleIds C (t :: ts)).indexOf s ∧
          (visibleIds C (t :: ts)).indexOf s < (visibleIds C (t :: ts)).length
      · rw [dif_pos hlt]
        simp only [Navigator.selOk, Navigator.visible, decide_eq_true_eq]
        exact List.get_mem _ _ _
      · rw [dif_neg hlt]
        exact h

/-- Operation `expand` preserves the selection invariant. -/
theorem selOk_doExpand (nav : Navigator) (c : Nat) (h : nav.selOk = true) :
    (nav.doExpand c).selOk = true := by
  obtain ⟨tree, C, sel⟩ := nav
  cases hf : findF c tree with
  | none => simpa [Navigator.doExpand, hf] using h
  | some n =>
    by_cases hemp : n.children.isEmpty
    · simpa [Navigator.doExpand, hf, hemp] using h
    · cases tree with
      | nil => simp [findF] at hf
      | cons t ts =>
        cases sel with
        | none => simp [Navigator.selOk] at h
        | some s =>
          simp only [Navigator.selOk, Navigator.visible, decide_eq_true_eq] at h
          simp only [Navigator.doExpand, hf, hemp, if_false, Bool.false_eq_true]
          simp only [Navigator.selOk, Navigator.visible, decide_eq_true_eq]
          exact mem_visible_mono C (C.filter (fun x => x != c)) (t :: ts)
            (fun x hx => (List.mem_filter.mp hx).1) s h

/-- Operation `collapse` preserves the selection invariant. -/
theorem selOk_doCollapse (nav : Navigator) (c : Nat)
    (hnd : (subIdsF nav.tree).Nodup) (h : nav.selOk = true) :
    (nav.doCollapse c).selOk = true := by
  obtain ⟨tree, C, sel⟩ := nav
  cases hf : findF c tree with
  | none => simpa [Navigator.doCollapse, hf] using h
  | some n =>
    by_cases hemp : n.children.isEmpty
    · simpa [Navigator.doCollapse, hf, hemp] using h
    · cases tree with
      | nil => simp [findF] at hf
      | cons t ts =>
        cases sel with
        | none => simp [Navigator.selOk] at h
        | some s =>
          simp only [Navigator.selOk, Navigator.visible, decide_eq_true_eq] at h
          simp only [Navigator.doCollapse, hf, hemp, if_false, Bool.false_eq_true]
          by_cases hin : s ∈ subIdsF n.children
          · simp only [hin, if_pos]
            simp only [Navigator.selOk, Navigator.visible, decide_eq_true_eq]
            exact mem_visible_collapse_anc C (t :: ts) c n hnd hf s h hin
          · simp only [hin, if_neg, if_false]
            simp only [Navigator.selOk, Navigator.visible, decide_eq_true_eq]
            exact mem_visible_collapse_kept C (t :: ts) c n hnd hf s h hin

/-- Operation `toggle` preserves the selection invariant. -/
theorem selOk_doToggle (nav : Navigator) (c : Nat)
    (hnd : (subIdsF nav.tree).Nodup) (h : nav.selOk = true) :
    (nav.doToggle c).selOk = true := by
  simp only [Navigator.doToggle]
  by_cases hc : c ∈ nav.collapsed
  · rw [if_pos hc]
    exact selOk_doExpand nav c h
  · rw [if_neg hc]
    exact selOk_doCollapse nav c hnd h

/-- Operation `rebuild` establishes the selection invariant on any new tree,
whatever the previous state was. -/
theorem selOk_doRebuild (nav : Navigator) (t : List Node) :
    (nav.doRebuild t).selOk = true := by
  obtain ⟨tree, C, sel⟩ := nav
  simp only [Navigator.doRebuild]
  cases t with
  | nil =>
    cases sel <;> simp [Navigator.selOk, visible_nil]
  | cons n ns =>
    cases hv : visibleIds (C.filter (fun x => decide (x ∈ subIdsF (n :: ns)))) (n :: ns) with
    | nil => exact absurd hv (visible_ne_nil _ n ns)
    | cons x xs =>
      cases sel with
      | none =>
        simp only [hv, List.head?_cons]
        simp only [Navigator.selOk, Navigator.visible, hv, decide_eq_true_eq]
        exact List.mem_cons_self x xs
      | some s =>
        by_cases hs : s ∈ visibleIds (C.filter (fun x => decide (x ∈ subIdsF (n :: ns)))) (n :: ns)
        · simp only [hv] at hs ⊢
          rw [if_pos hs]
          simp only [Navigator.selOk, Navigator.visible, hv, decide_eq_true_eq]
          exact hs
        · simp only [hv] at hs ⊢
          rw [if_neg hs]
          simp only [List.head?_cons]
          simp only [Navigator.selOk, Navigator.visible, hv, decide_eq_true_eq]
          exact List.mem_cons_self x xs

/-- In a duplicate-free list, the index of the element at position `i` is
`i`. -/
theorem nodup_indexOf_get {l : List Nat} (hnd : l.Nodup) (i : Nat)
    (h : i < l.length) : l.indexOf (l.get ⟨i, h⟩) = i := by
  have hmem : l.get ⟨i, h⟩ ∈ l := List.get_mem _ _ _
  have hlt : l.indexOf (l.get ⟨i, h⟩) < l.length := List.indexOf_lt_length.mpr hmem
  have hget : l.get ⟨l.indexOf (l.get ⟨i, h⟩), hlt⟩ = l.get ⟨i, h⟩ :=
    List.indexOf_get hlt
  have hinj := List.nodup_iff_injective_get.mp hnd hget
  have := congrArg Fin.val hinj
  simpa using this

/-- Counterexample to C1 as stated: in the old tree, node 1 is an ancestor of
the selected node 2; rebuilding with a tree from which node 2 was removed
re-maps the selection to the root 0 (first visible node), even though the
nearest visible ancestor 1 still exists and is visible in the new tree — so
a removed selection is not reassigned to its nearest visible ancestor. -/
theorem selection_repair_counterexample :
    findN 1 (Node.mk 1 [Node.mk 2 []]) = some (Node.mk 1 [Node.mk 2 []]) ∧
      (2 : Nat) ∈ subIdsF (Node.mk 1 [Node.mk 2 []]).children ∧
      findF 1 [Node.mk 0 [Node.mk 1 []]] = some (Node.mk 1 []) ∧
      (1 : Nat) ∈ visibleIds [] [Node.mk 0 [Node.mk 1 []]] ∧
      (applyMutation (Mutation.rebuild [Node.mk 0 [Node.mk 1 []]])
        ⟨[Node.mk 0 [Node.mk 1 [Node.mk 2 []]]], [], some 2⟩).selection = some 0 ∧
      (applyMutation (Mutation.rebuild [Node.mk 0 [Node.mk 1 []]])
        ⟨[Node.mk 0 [Node.mk 1 [Node.mk 2 []]]], [], some 2⟩).selection ≠ some 1 := by
  refine ⟨?_, ?_, ?_, ?_, ?_, ?_⟩
  · simp [findN]
  · decide
  · simp [findF, findN]
  · decide
  · simp only [applyMutation, Navigator.doRebuild]
    decide
  · simp only [applyMutation, Navigator.doRebuild]
    decide

/-- C1 (amended; spec sections 3, 4.3 and 7): after every navigator mutation
(the key-driven operations and the loader-driven rebuild) the selection
invariant is preserved — on a non-empty tree the selection refers to a
visible node of the tree and is never cleared; collapsing an ancestor of the
selected node moves the selection to that ancestor; and a rebuild whose new
tree gives the previous selection no visible match falls back to the root
(the first visible node), not to the nearest visible ancestor. -/
theorem selection_repair (nav : Navigator) (m : Mutation)
    (hnd : (subIdsF nav.tree).Nodup) (hinv : nav.selOk = true) :
    (applyMutation m nav).selOk = true ∧
      (∀ c s n, m = Mutation.nav (Op.collapse c) → nav.selection = some s →
        findF c nav.tree = some n → s ∈ subIdsF n.children →
        (applyMutation m nav).selection = some c) ∧
      (∀ t s, m = Mutation.rebuild t → nav.selection = some s →
        s ∉ visibleIds (nav.collapsed.filter (fun x => decide (x ∈ subIdsF t))) t →
        (applyMutation m nav).selection =
          (visibleIds (nav.collapsed.filter (fun x => decide (x ∈ subIdsF t))) t).head?) := by
  refine ⟨?_, ?_, ?_⟩
  · cases m with
    | rebuild t => exact selOk_doRebuild nav t
    | nav op =>
      cases op with
      | selectNext => exact selOk_doSelectNext nav hinv
      | selectPrevious => exact selOk_doSelectPrevious nav hinv
      | selectFirst => exact selOk_doSelectFirst nav hinv
      | selectLast => exact selOk_doSelectLast nav hinv
      | expand c => exact selOk_doExpand nav c hinv
      | collapse c => exact selOk_doCollapse nav c hnd hinv
      | toggle c => exact selOk_doToggle nav c hnd hinv
  · intro c s n hop hsel hf hin
    subst hop
    have hne : ¬ n.children.isEmpty = true := by
      cases hcn : n.children with
      | nil => rw [hcn] at hin; simp [subIdsF] at hin
      | cons a as => simp
    simp only [applyMutation, applyOp, Navigator.doCollapse, hf]
    rw [if_neg hne]
    simp [hsel, hin]
  · intro t s hm hsel hnotvis
    subst hm
    simp only [applyMutation, Navigator.doRebuild, hsel]
    rw [if_neg hnotvis]

/-- Witness for C1 at a concrete navigator: collapsing the parent of the
selected leaf keeps the invariant and moves the selection to the parent. -/
theorem selection_repair_witness :
    (applyMutation (Mutation.nav (Op.collapse 1))
        ⟨[Node.mk 0 [Node.mk 1 [Node.mk 2 []]]], [], some 2⟩).selOk = true ∧
      (∀ c s n, Mutation.nav (Op.collapse 1) = Mutation.nav (Op.collapse c) →
        (⟨[Node.mk 0 [Node.mk 1 [Node.mk 2 []]]], [], some 2⟩ :
            Navigator).selection = some s →
        findF c [Node.mk 0 [Node.mk 1 [Node.mk 2 []]]] = some n →
        s ∈ subIdsF n.children →
        (applyMutation (Mutation.nav (Op.collapse 1))
          ⟨[Node.mk 0 [Node.mk 1 [Node.mk 2 []]]], [], some 2⟩).selection = some c) ∧
      (∀ t s, Mutation.nav (Op.collapse 1) = Mutation.rebuild t →
        (⟨[Node.mk 0 [Node.mk 1 [Node.mk 2 []]]], [], some 2⟩ :
            Navigator).selection = some s →
        s ∉ visibleIds ((⟨[Node.mk 0 [Node.mk 1 [Node.mk 2 []]]], [], some 2⟩ :
            Navigator).collapsed.filter (fun x => decide (x ∈ subIdsF t))) t →
        (applyMutation (Mutation.nav (Op.collapse 1))
          ⟨[Node.mk 0 [Node.mk 1 [Node.mk 2 []]]], [], some 2⟩).selection =
          (visibleIds ((⟨[Node.mk 0 [Node.mk 1 [Node.mk 2 []]]], [], some 2⟩ :
            Navigator).collapsed.filter (fun x => decide (x ∈ subIdsF t))) t).head?) :=
  selection_repair ⟨[Node.mk 0 [Node.mk 1 [Node.mk 2 []]]], [], some 2⟩
    (Mutation.nav (Op.collapse 1)) (by decide) (by decide)

/-- C6 (spec sections 4.3 and 8): from any selected position that is not the
last visible node, `select_next` followed by `select_previous` restores the
original selection. -/
theorem select_next_previous_roundtrip (nav : Navigator)
    (hnd : (subIdsF nav.tree).Nodup) (s : Nat) (hsel : nav.selection = some s)
    (hnotlast : nav.visible.indexOf s + 1 < nav.visible.length) :
    nav.doSelectNext.doSelectPrevious.selection = some s := by
  obtain ⟨tree, C, sel⟩ := nav
  simp only at hsel
  subst hsel
  simp only [Navigator.visible] at hnotlast hnd ⊢
  have hndl : (visibleIds C tree).Nodup := visibleIds_nodup C tree hnd
  simp only [Navigator.doSelectNext, Navigator.visible]
  rw [dif_pos hnotlast]
  simp only [Navigator.doSelectPrevious, Navigator.visible]
  set l := visibleIds C tree with hl
  set i := l.indexOf s with hi
  have hidx : l.indexOf (l.get ⟨i + 1, hnotlast⟩) = i + 1 :=
    nodup_indexOf_get hndl (i + 1) hnotlast
  have hcond : 0 < l.indexOf (l.get ⟨i + 1, hnotlast⟩) ∧
      l.indexOf (l.get ⟨i + 1, hnotlast⟩) < l.length := by
    rw [hidx]
    omega
  rw [dif_pos hcond]
  simp only [Option.some.injEq]
  have hmem : s ∈ l := by
    by_contra hno
    have := List.indexOf_of_not_mem hno
    rw [← hi] at *
    omega
  have hfin : (⟨l.indexOf (l.get ⟨i + 1, hnotlast⟩) - 1, by omega⟩ : Fin l.length) =
      ⟨i, by omega⟩ := by
    apply Fin.ext
    simp only [List.get_eq_getElem] at hidx ⊢
    omega
  rw [hfin]
  exact List.indexOf_get (List.indexOf_lt_length.mpr hmem)

/-- Witness for C6 at a concrete navigator: from the root of a two-node
chain, next-then-previous returns to the root. -/
theorem select_next_previous_roundtrip_witness :
    (Navigator.doSelectPrevious (Navigator.doSelectNext
        ⟨[Node.mk 0 [Node.mk 1 []]], [], some 0⟩)).selection = some 0 :=
  select_next_previous_roundtrip ⟨[Node.mk 0 [Node.mk 1 []]], [], some 0⟩
    (by decide) 0 rfl (by decide)

/-- C7 (spec sections 4.2, 4.3 and 7): on an empty tree the flattening is
empty and every navigator operation is a no-op that changes no state. -/
theorem empty_tree_noop (nav : Navigator) (op : Op) (h : nav.tree = []) :
    nav.visible = [] ∧ applyOp op nav = nav := by
  obtain ⟨tree, C, sel⟩ := nav
  simp only at h
  subst h
  refine ⟨rfl, ?_⟩
  cases op with
  | selectNext =>
    cases sel with
    | none => rfl
    | some s =>
      simp [applyOp, Navigator.doSelectNext, Navigator.visible, visibleIds, flattenF]
  | selectPrevious =>
    cases sel with
    | none => rfl
    | some s =>
      simp [applyOp, Navigator.doSelectPrevious, Navigator.visible, visibleIds, flattenF]
  | selectFirst =>
    simp [applyOp, Navigator.doSelectFirst, Navigator.visible, visibleIds, flattenF]
  | selectLast =>
    simp [applyOp, Navigator.doSelectLast, Navigator.visible, visibleIds, flattenF]
  | expand c =>
    simp [applyOp, Navigator.doExpand, findF]
  | collapse c =>
    simp [applyOp, Navigator.doCollapse, findF]
  | toggle c =>
    by_cases hc : c ∈ C
    · simp [applyOp, Navigator.doToggle, hc, Navigator.doExpand, findF]
    · simp [applyOp, Navigator.doToggle, hc, Navigator.doCollapse, findF]

/-- Witness for C7 at the empty navigator and a select operation. -/
theorem empty_tree_noop_witness :
    (⟨[], [], none⟩ : Navigator).visible = [] ∧
      applyOp Op.selectNext ⟨[], [], none⟩ = ⟨[], [], none⟩ :=
  empty_tree_noop ⟨[], [], none⟩ Op.selectNext rfl

/-- C2 (spec sections 4.2 and 8): a fresh run of the flattening iterator is
the pure flattening of its inputs — hence two runs from identical inputs
yield identical sequences — and a step of the iterator never mutates the
iterator-external state (the borrowed collapse set). -/
theorem iterator_restartable (f : List Node) (C : List Nat) (s : IterState)
    (x : (Nat × Nat) × IterState) (h : iterNext s = some x) :
    runIter (initIter f C) = flattenF C 0 f ∧
      runIter (initIter f C) = runIter (initIter f C) ∧
      x.2.collapsed = s.collapsed :=
  ⟨runIter_initIter f C, rfl, iterNext_frame s x h⟩

/-- Witness for C2 at a concrete tree, collapse set and iterator step. -/
theorem iterator_restartable_witness :
    runIter (initIter [Node.mk 0 []] [1]) = flattenF [1] 0 [Node.mk 0 []] ∧
      runIter (initIter [Node.mk 0 []] [1]) = runIter (initIter [Node.mk 0 []] [1]) ∧
      (((0, 0), (⟨[1], []⟩ : IterState)) : (Nat × Nat) × IterState).2.collapsed =
        (⟨[1], [(Node.mk 0 [], 0)]⟩ : IterState).collapsed :=
  iterator_restartable [Node.mk 0 []] [1] ⟨[1], [(Node.mk 0 [], 0)]⟩
    ((0, 0), ⟨[1], []⟩) (by simp [iterNext, Node.id, Node.children])

/-- C3 (spec sections 4.3 and 8): collapsing a non-leaf node removes from the
flattened sequence exactly the strict descendants of that node — the node
itself is still emitted, and every other entry is kept, in unchanged
relative order (the sequence after the collapse is the filtered original
sequence). -/
theorem collapse_removes_exactly_descendants (f : List Node) (C : List Nat)
    (c : Nat) (n : Node) (hnd : (subIdsF f).Nodup) (hf : findF c f = some n)
    (hleaf : n.children ≠ []) :
    flattenF (c :: C) 0 f =
        (flattenF C 0 f).filter (fun e => decide (e.1 ∉ subIdsF n.children)) ∧
      (∀ e, e ∈ flattenF C 0 f → e.1 = c → e ∈ flattenF (c :: C) 0 f) := by
  refine ⟨collapse_filter.2 f C 0 c n hnd hf, ?_⟩
  intro e he hc
  rw [collapse_filter.2 f C 0 c n hnd hf, List.mem_filter]
  refine ⟨he, ?_⟩
  simp only [decide_eq_true_eq, hc]
  have hndn : (subIdsN n).Nodup := (find_sublist.2 f c n hf).nodup hnd
  have hid : n.id = c := find_id.2 f c n hf
  cases n with
  | mk j js =>
    simp only [Node.id] at hid
    subst hid
    simp only [subIdsN, List.nodup_cons] at hndn
    simpa [Node.children] using hndn.1

/-- Witness for C3 at a concrete tree: collapsing the root of a
three-node chain removes exactly its two descendants. -/
theorem collapse_removes_exactly_descendants_witness :
    flattenF [0] 0 [Node.mk 0 [Node.mk 1 [], Node.mk 2 []]] =
        (flattenF [] 0 [Node.mk 0 [Node.mk 1 [], Node.mk 2 []]]).filter
          (fun e => decide (e.1 ∉ subIdsF (Node.mk 0 [Node.mk 1 [], Node.mk 2 []]).children)) ∧
      (∀ e, e ∈ flattenF [] 0 [Node.mk 0 [Node.mk 1 [], Node.mk 2 []]] → e.1 = 0 →
        e ∈ flattenF [0] 0 [Node.mk 0 [Node.mk 1 [], Node.mk 2 []]]) :=
  collapse_removes_exactly_descendants [Node.mk 0 [Node.mk 1 [], Node.mk 2 []]]
    [] 0 (Node.mk 0 [Node.mk 1 [], Node.mk 2 []]) (by decide)
    (by simp [findF, findN]) (by simp [Node.children])

/-- Embeds `TreeIterator::next` (src/tree/tree_iter.rs): the selection-flagging
iterator wraps the underlying items iterator, which yields (index, item)
pairs, and maps each to (item, is_selected) where
`is_selected = selection.map(|i| i == index).unwrap_or_default()`.  The
underlying iterator is represented by the list of pairs it yields; the item
payload is abstract. -/
def treeIterOut {α : Type} (items : List (Nat × α)) (selection : Option Nat) :
    List (α × Bool) :=
  items.map (fun p => (p.2, (selection.map (fun i => decide (i = p.1))).getD false))

/-- The flagging iterator yields exactly one output per underlying item. -/
theorem treeIterOut_length {α : Type} (items : List (Nat × α))
    (selection : Option Nat) : (treeIterOut items selection).length = items.length := by
  simp [treeIterOut]

/-- C4 (src/tree/tree_iter.rs lines 20-24): an output entry is flagged as
selected exactly when the selection is set and equals that entry's flattened
index; with no selection, no entry is flagged. -/
theorem selected_flag_iff {α : Type} (items : List (Nat × α))
    (sel : Option Nat) (k : Nat) (hk : k < items.length) :
    (((treeIterOut items sel).get
        ⟨k, by rw [treeIterOut_length]; exact hk⟩).2 = true ↔
      sel = some ((items.get ⟨k, hk⟩).1)) ∧
      (∀ out, out ∈ treeIterOut items (none : Option Nat) → out.2 = false) := by
  constructor
  · simp only [treeIterOut, List.get_eq_getElem, List.getElem_map]
    cases sel with
    | none => simp
    | some i =>
      simp only [Option.map_some', Option.getD_some, decide_eq_true_eq,
        Option.some.injEq]
  · intro out hout
    simp only [treeIterOut, List.mem_map] at hout
    rcases hout with ⟨p, _, hp⟩
    rw [← hp]
    simp

/-- Witness for C4 at a concrete item list and selection. -/
theorem selected_flag_iff_witness :
    (((treeIterOut [(5, "a"), (7, "b")] (some 7)).get
        ⟨1, by rw [treeIterOut_length]; decide⟩).2 = true ↔
      some 7 = some ((([(5, "a"), (7, "b")] : List (Nat × String)).get
        ⟨1, by decide⟩).1)) ∧
      (∀ out, out ∈ treeIterOut [(5, "a"), (7, "b")] (none : Option Nat) →
        out.2 = false) :=
  selected_flag_iff [(5, "a"), (7, "b")] (some 7) 1 (by decide)

/-- C5 (src/tree/tree_iter.rs lines 17-25): the flagging iterator yields
exactly the underlying items, in the same order and count, each paired with
a flag; the selection value never changes which items appear or their
order. -/
theorem flag_iter_preserves_items {α : Type} (items : List (Nat × α))
    (sel sel' : Option Nat) :
    (treeIterOut items sel).map Prod.fst = items.map Prod.snd ∧
      (treeIterOut items sel).length = items.length ∧
      (treeIterOut items sel).map Prod.fst = (treeIterOut items sel').map Prod.fst := by
  refine ⟨?_, treeIterOut_length items sel, ?_⟩
  · simp [treeIterOut, List.map_map]
  · simp [treeIterOut, List.map_map]

/-- Embeds `DatabaseType` (src/config.rs). -/
inductive DatabaseType : Type where
  | mysql
  | postgres
  | sqlite

/-- Embeds `Connection` (src/config.rs).  Paths are modelled as strings. -/
structure Connection where
  type : DatabaseType
  name : Option String
  user : Option String
  host : Option String
  port : Option Nat
  path : Option String
  password : Option String
  unix_domain_socket : Option String
  database : Option String
  limit_size : Nat
  timeout_second : Nat

/-- Embeds `Connection::valid_unix_domain_socket` (src/config.rs) on a unix target:
expand the configured socket path and reject the empty result.  Path
expansion reads the environment, so it is passed in as a function. -/
def Connection.valid_unix_domain_socket (expandPath : String → Option String)
    (c : Connection) : Option String :=
  c.unix_domain_socket.bind (fun uds =>
    (expandPath uds).bind (fun p => if p = "" then none else some p))

/-- Embeds `Connection::build_database_url` (src/config.rs): assemble the engine
URL from the connection fields and the supplied password string. -/
def Connection.build_database_url (expandPath : String → Option String)
    (c : Connection) (password : String) : Except String String :=
  match c.type with
  | .mysql =>
    match c.user with
    | none => .error "type mysql needs the user field in Connection::build_database_url"
    | some user =>
      match c.host with
      | none => .error "type mysql needs the host field in Connection::build_database_url"
      | some host =>
        match c.port with
        | none => .error "type mysql needs the port field in Connection::build_database_url"
        | some port =>
          let uds :=
            match c.valid_unix_domain_socket expandPath with
            | some u => "?socket=" ++ u
            | none => ""
          match c.database with
          | some database =>
            .ok ("mysql://" ++ user ++ ":" ++ password ++ "@" ++ host ++ ":" ++
              toString port ++ "/" ++ database ++ uds)
          | none =>
            .ok ("mysql://" ++ user ++ ":" ++ password ++ "@" ++ host ++ ":" ++
              toString port ++ uds)
  | .postgres =>
    match c.user with
    | none => .error "type postgres needs the user field in Connection::build_database_url"
    | some user =>
      match c.host with
      | none => .error "type postgres needs the host field in Connection::build_database_url"
      | some host =>
        match c.port with
        | none => .error "type postgres needs the port field in Connection::build_database_url"
        | some port =>
          match c.valid_unix_domain_socket expandPath with
          | some uds =>
            match c.database with
            | some database =>
              .ok ("postgres://?dbname=" ++ database ++ "&host=" ++ uds ++
                "&user=" ++ user ++ "&password=" ++ password)
            | none =>
              .ok ("postgres://?host=" ++ uds ++ "&user=" ++ user ++
                "&password=" ++ password)
          | none =>
            match c.database with
            | some database =>
              .ok ("postgres://" ++ user ++ ":" ++ password ++ "@" ++ host ++ ":" ++
                toString port ++ "/" ++ database)
            | none =>
              .ok ("postgres://" ++ user ++ ":" ++ password ++ "@" ++ host ++ ":" ++
                toString port)
  | .sqlite =>
    match c.path with
    | none => .error "type sqlite needs the path field in Connection::build_database_url"
    | some path =>
      match expandPath path with
      | none => .error "cannot expand file path in Connection::build_database_url"
      | some p => .ok ("sqlite://" ++ p)

/-- Embeds `Connection::database_url` (src/config.rs). -/
def Connection.database_url (expandPath : String → Option String)
    (c : Connection) : Except String String :=
  c.build_database_url expandPath (c.password.getD "")

/-- A run of `n` star characters. -/
def repeatStar (n : Nat) : String :=
  String.mk (List.replicate n '*')

/-- Embeds `Connection::masked_database_url` (src/config.rs): the URL built with the
password replaced by a same-length run of stars. -/
def Connection.masked_database_url (expandPath : String → Option String)
    (c : Connection) : Except String String :=
  c.build_database_url expandPath (repeatStar (c.password.getD "").length)

/-- Embeds `Connection::database_url_with_name` (src/config.rs): the masked URL,
prefixed with the connection's display name when present. -/
def Connection.database_url_with_name (expandPath : String → Option String)
    (c : Connection) : Except String String :=
  match c.masked_database_url expandPath with
  | .ok url =>
    .ok (match c.name with
      | some name => "[" ++ name ++ "] " ++ url
      | none => url)
  | .error e =>
    .error ("Failed to masked_database_url in Connection::database_url_with_name: " ++ e)

/-- The displayed URL does not depend on the password beyond its length:
`build_database_url` never reads the password field itself. -/
theorem build_url_ignores_password_field (expandPath : String → Option String)
    (c : Connection) (p q : Option String) (pw : String) :
    Connection.build_database_url expandPath { c with password := p } pw =
      Connection.build_database_url expandPath { c with password := q } pw := rfl

/-- C9 (src/config.rs lines 245-253 and 369-378): two connections that agree
on everything but the password, with passwords of equal length (an absent
password counting as length zero), produce identical `database_url_with_name`
output — the display never contains the plaintext password, only a
same-length star run. -/
theorem masked_url_password_independent (expandPath : String → Option String)
    (c : Connection) (p q : Option String)
    (hlen : (p.getD "").length = (q.getD "").length) :
    Connection.database_url_with_name expandPath { c with password := p } =
      Connection.database_url_with_name expandPath { c with password := q } := by
  unfold Connection.database_url_with_name Connection.masked_database_url
  rw [show ({ c with password := p } : Connection).password = p from rfl,
    show ({ c with password := q } : Connection).password = q from rfl,
    hlen, build_url_ignores_password_field expandPath c p q]

/-- Witness for C9: a mysql connection with password "secret" renders the
same URL as one with password "hunter"; both show six stars. -/
theorem masked_url_password_independent_witness :
    Connection.database_url_with_name (fun s => some s)
        { type := .mysql, name := some "prod", user := some "root",
          host := some "localhost", port := some 3306, path := none,
          password := some "secret", unix_domain_socket := none,
          database := some "city", limit_size := 200, timeout_second := 5 } =
      Connection.database_url_with_name (fun s => some s)
        { type := .mysql, name := some "prod", user := some "root",
          host := some "localhost", port := some 3306, path := none,
          password := some "hunter", unix_domain_socket := none,
          database := some "city", limit_size := 200, timeout_second := 5 } :=
  masked_url_password_independent (fun s => some s)
    { type := .mysql, name := some "prod", user := some "root",
      host := some "localhost", port := some 3306, path := none,
      password := none, unix_domain_socket := none,
      database := some "city", limit_size := 200, timeout_second := 5 }
    (some "secret") (some "hunter") (by decide)

/-- A byte range (std::ops::Range<usize>) as used by the highlighter items
(src/ui/syntax_text.rs); string content is modelled per character. -/
structure CRange where
  start : Nat
  stop : Nat

/-- A syntect colour (r, g, b, a). -/
structure SynColor where
  r : Nat
  g : Nat
  b : Nat
  a : Nat

/-- The syntect font-style flags read by `syntact_style_to_tui`. -/
structure SynFontStyle where
  bold : Bool
  italic : Bool
  underline : Bool

/-- A syntect highlighting style (src/ui/syntax_text.rs uses foreground and
font_style; background is carried but unread). -/
structure SynStyle where
  foreground : SynColor
  background : SynColor
  font_style : SynFontStyle

/-- A ratatui colour as produced here (always an RGB triple). -/
inductive TuiColor : Type where
  | rgb (r g b : Nat)

/-- The ratatui style modifiers added by `syntact_style_to_tui`. -/
inductive TuiModifier : Type where
  | bold
  | italic
  | underlined

/-- A ratatui style: optional foreground colour plus added modifiers. -/
structure TuiStyle where
  fg : Option TuiColor
  mods : List TuiModifier

/-- A ratatui `Span`: a styled piece of line content. -/
structure TuiSpan where
  content : String
  style : TuiStyle

/-- A ratatui `Line`: a list of spans. -/
structure TuiLine where
  spans : List TuiSpan

/-- A ratatui `Text`: a list of lines. -/
structure TuiText where
  lines : List TuiLine

/-- Embeds `SyntaxLine` (src/ui/syntax_text.rs): the highlighter items of one line:
(style, line number, byte range). -/
structure SyntaxLine where
  items : List (SynStyle × Nat × CRange)

/-- Embeds `SyntaxText` (src/ui/syntax_text.rs): the raw text plus per-line
highlighting items. -/
structure SyntaxText where
  text : String
  lines : List SyntaxLine

/-- Rust `str::lines`: split on newline characters; a carriage return is
stripped only when it immediately precedes a consumed newline, so a final
line with no following newline keeps a trailing carriage return; a final
trailing newline produces no extra empty line. -/
def linesOf (s : String) : List String :=
  let parts := s.splitOn "\n"
  match parts.getLast? with
  | none => []
  | some "" =>
    (parts.dropLast).map (fun l => if l.endsWith "\r" then l.dropRight 1 else l)
  | some lastLine =>
    (parts.dropLast).map (fun l => if l.endsWith "\r" then l.dropRight 1 else l)
      ++ [lastLine]

/-- Rust slice indexing `&line[range]`. -/
def sliceRange (s : String) (r : CRange) : String :=
  String.mk ((s.toList.take r.stop).drop r.start)

/-- Embeds `syntact_style_to_tui` (src/ui/syntax_text.rs): foreground from the RGB
components, then BOLD, ITALIC, UNDERLINED modifiers in that order when the
corresponding font-style flag is set. -/
def syntact_style_to_tui (style : SynStyle) : TuiStyle :=
  let res : TuiStyle :=
    { fg := some (.rgb style.foreground.r style.foreground.g style.foreground.b)
      mods := [] }
  let res := if style.font_style.bold then { res with mods := res.mods ++ [.bold] } else res
  let res := if style.font_style.italic then { res with mods := res.mods ++ [.italic] } else res
  let res := if style.font_style.underline then { res with mods := res.mods ++ [.underlined] } else res
  res

/-- Embeds `SyntaxText::convert` (src/ui/syntax_text.rs lines 48-65): zip the
highlighting lines with the text's lines and build one styled span per
highlighter item. -/
def SyntaxText.convert (st : SyntaxText) : TuiText :=
  let result_lines : List TuiLine :=
    (st.lines.zip (linesOf st.text)).map (fun sl =>
      { spans := sl.1.items.map (fun it =>
          { content := sliceRange sl.2 it.2.2
            style := syntact_style_to_tui it.1 }) })
  { lines := result_lines }

/-- Embeds `From<&SyntaxText> for ratatui::text::Text` (src/ui/syntax_text.rs lines
68-87): the stand-alone conversion implementation, transliterated
separately. -/
def textFromSyntaxText (v : SyntaxText) : TuiText :=
  let result_lines : List TuiLine :=
    (v.lines.zip (linesOf v.text)).map (fun sl =>
      { spans := sl.1.items.map (fun it =>
          { content := sliceRange sl.2 it.2.2
            style := syntact_style_to_tui it.1 }) })
  { lines := result_lines }

/-- C8 (src/ui/syntax_text.rs lines 48-65 and 68-87): `SyntaxText::convert`
and the `From<&SyntaxText>` conversion body are the same algorithm and agree
on every input. -/
theorem convert_eq_from (st : SyntaxText) :
    st.convert = textFromSyntaxText st := rfl

/-- Modelled from the spec: `crate::event::Key` (not among the provided
sources) — the key variants used by the default key configuration. -/
inductive Key : Type where
  | char (c : Char)
  | ctrl (c : Char)
  | up
  | down
  | left
  | right
  | enter
  | esc
deriving DecidableEq

/-- Embeds `KeyConfig` (src/config.rs): the full key-binding table. -/
structure KeyConfig where
  scroll_up : Key
  scroll_down : Key
  scroll_right : Key
  scroll_left : Key
  sort_by_column : Key
  move_up : Key
  move_down : Key
  copy : Key
  enter : Key
  exit : Key
  quit : Key
  exit_popup : Key
  focus_right : Key
  focus_left : Key
  focus_above : Key
  focus_connections : Key
  open_help : Key
  filter : Key
  scroll_down_multiple_lines : Key
  scroll_up_multiple_lines : Key
  scroll_to_top : Key
  scroll_to_bottom : Key
  move_to_head_of_line : Key
  move_to_tail_of_line : Key
  extend_selection_by_one_cell_left : Key
  extend_selection_by_one_cell_right : Key
  extend_selection_by_one_cell_up : Key
  extend_selection_by_one_cell_down : Key
  extend_selection_by_horizontal_line : Key
  tab_records : Key
  tab_columns : Key
  tab_constraints : Key
  tab_definition : Key
  tab_foreign_keys : Key
  tab_indexes : Key
  tab_sql_editor : Key
  tab_properties : Key
  extend_or_shorten_widget_width_to_right : Key
  extend_or_shorten_widget_width_to_left : Key

/-- Embeds `impl Default for KeyConfig` (src/config.rs). -/
def defaultKeyConfig : KeyConfig where
  scroll_up := .char 'k'
  scroll_down := .char 'j'
  scroll_right := .char 'l'
  scroll_left := .char 'h'
  sort_by_column := .char 's'
  move_up := .up
  move_down := .down
  copy := .char 'y'
  enter := .enter
  exit := .ctrl 'c'
  quit := .char 'q'
  exit_popup := .esc
  focus_right := .right
  focus_left := .left
  focus_above := .up
  focus_connections := .char 'c'
  open_help := .char '?'
  filter := .char '/'
  scroll_down_multiple_lines := .ctrl 'd'
  scroll_up_multiple_lines := .ctrl 'u'
  scroll_to_top := .char 'g'
  scroll_to_bottom := .char 'G'
  move_to_head_of_line := .char '^'
  move_to_tail_of_line := .char '$'
  extend_selection_by_one_cell_left := .char 'H'
  extend_selection_by_one_cell_right := .char 'L'
  extend_selection_by_one_cell_up := .char 'K'
  extend_selection_by_one_cell_down := .char 'J'
  extend_selection_by_horizontal_line := .char 'V'
  tab_records := .char '1'
  tab_columns := .char '4'
  tab_constraints := .char '5'
  tab_definition := .char '8'
  tab_foreign_keys := .char '6'
  tab_indexes := .char '7'
  tab_sql_editor := .char '3'
  tab_properties := .char '2'
  extend_or_shorten_widget_width_to_right := .char '>'
  extend_or_shorten_widget_width_to_left := .char '<'

/-- Embeds `Tab` (src/components/tab.rs). -/
inductive Tab : Type where
  | records
  | properties
  | sql
deriving DecidableEq

/-- Embeds `EventState` (src/components): whether a key event was consumed. -/
inductive EventState : Type where
  | consumed
  | notConsumed
deriving DecidableEq

/-- Embeds `TabComponent` (src/components/tab.rs). -/
structure TabComponent where
  selected_tab : Tab
  key_config : KeyConfig

/-- Embeds `TabComponent::event` (src/components/tab.rs lines 74-86): match the key
against tab_records, then tab_sql_editor, then tab_properties; on a match set
the tab and consume the event, otherwise leave the component unchanged.  The
`anyhow::Result` return is modelled as `Except String`; the function has no
error path. -/
def TabComponent.event (t : TabComponent) (key : Key) :
    TabComponent × Except String EventState :=
  if key = t.key_config.tab_records then
    ({ t with selected_tab := .records }, .ok .consumed)
  else if key = t.key_config.tab_sql_editor then
    ({ t with selected_tab := .sql }, .ok .consumed)
  else if key = t.key_config.tab_properties then
    ({ t with selected_tab := .properties }, .ok .consumed)
  else
    (t, .ok .notConsumed)

/-- C10 (src/components/tab.rs lines 74-86): the event handler consumes
exactly the three tab keys, in records/sql/properties precedence order,
setting the corresponding tab; any other key is not consumed and leaves the
component unchanged; no input produces an error. -/
theorem tab_event_spec (t : TabComponent) (key : Key) :
    (key = t.key_config.tab_records →
      t.event key = ({ t with selected_tab := .records }, .ok .consumed)) ∧
    (key ≠ t.key_config.tab_records → key = t.key_config.tab_sql_editor →
      t.event key = ({ t with selected_tab := .sql }, .ok .consumed)) ∧
    (key ≠ t.key_config.tab_records → key ≠ t.key_config.tab_sql_editor →
      key = t.key_config.tab_properties →
      t.event key = ({ t with selected_tab := .properties }, .ok .consumed)) ∧
    (key ≠ t.key_config.tab_records → key ≠ t.key_config.tab_sql_editor →
      key ≠ t.key_config.tab_properties →
      t.event key = (t, .ok .notConsumed)) ∧
    (∃ st, (t.event key).2 = .ok st) := by
  refine ⟨?_, ?_, ?_, ?_, ?_⟩
  · intro h1
    simp only [TabComponent.event, if_pos h1]
  · intro h1 h2
    simp only [TabComponent.event, if_neg h1, if_pos h2]
  · intro h1 h2 h3
    simp only [TabComponent.event, if_neg h1, if_neg h2, if_pos h3]
  · intro h1 h2 h3
    simp only [TabComponent.event, if_neg h1, if_neg h2, if_neg h3]
  · by_cases h1 : key = t.key_config.tab_records
    · exact ⟨.consumed, by simp only [TabComponent.event, if_pos h1]⟩
    · by_cases h2 : key = t.key_config.tab_sql_editor
      · exact ⟨.consumed, by simp only [TabComponent.event, if_neg h1, if_pos h2]⟩
      · by_cases h3 : key = t.key_config.tab_properties
        · exact ⟨.consumed, by
            simp only [TabComponent.event, if_neg h1, if_neg h2, if_pos h3]⟩
        · exact ⟨.notConsumed, by
            simp only [TabComponent.event, if_neg h1, if_neg h2, if_neg h3]⟩

/-- Witness for C10 at the default key configuration and the records key. -/
theorem tab_event_spec_witness :
    ((Key.char '1') = (⟨Tab.records, defaultKeyConfig⟩ :
        TabComponent).key_config.tab_records →
      TabComponent.event ⟨Tab.records, defaultKeyConfig⟩ (Key.char '1') =
        ({ (⟨Tab.records, defaultKeyConfig⟩ : TabComponent) with
            selected_tab := .records }, .ok .consumed)) ∧
    ((Key.char '1') ≠ (⟨Tab.records, defaultKeyConfig⟩ :
        TabComponent).key_config.tab_records →
      (Key.char '1') = (⟨Tab.records, defaultKeyConfig⟩ :
        TabComponent).key_config.tab_sql_editor →
      TabComponent.event ⟨Tab.records, defaultKeyConfig⟩ (Key.char '1') =
        ({ (⟨Tab.records, defaultKeyConfig⟩ : TabComponent) with
            selected_tab := .sql }, .ok .consumed)) ∧
    ((Key.char '1') ≠ (⟨Tab.records, defaultKeyConfig⟩ :
        TabComponent).key_config.tab_records →
      (Key.char '1') ≠ (⟨Tab.records, defaultKeyConfig⟩ :
        TabComponent).key_config.tab_sql_editor →
      (Key.char '1') = (⟨Tab.records, defaultKeyConfig⟩ :
        TabComponent).key_config.tab_properties →
      TabComponent.event ⟨Tab.records, defaultKeyConfig⟩ (Key.char '1') =
        ({ (⟨Tab.records, defaultKeyConfig⟩ : TabComponent) with
            selected_tab := .properties }, .ok .consumed)) ∧
    ((Key.char '1') ≠ (⟨Tab.records, defaultKeyConfig⟩ :
        TabComponent).key_config.tab_records →
      (Key.char '1') ≠ (⟨Tab.records, defaultKeyConfig⟩ :
        TabComponent).key_config.tab_sql_editor →
      (Key.char '1') ≠ (⟨Tab.records, defaultKeyConfig⟩ :
        TabComponent).key_config.tab_properties →
      TabComponent.event ⟨Tab.records, defaultKeyConfig⟩ (Key.char '1') =
        (⟨Tab.records, defaultKeyConfig⟩, .ok .notConsumed)) ∧
    (∃ st, (TabComponent.event ⟨Tab.records, defaultKeyConfig⟩
        (Key.char '1')).2 = .ok st) :=
  tab_event_spec ⟨Tab.records, defaultKeyConfig⟩ (Key.char '1')

end Zhobo
